import Mathlib

/-!
Shallow embedding of the order-management API in `main.py`: the in-memory
order collection, the auth gate, the price-derivation helper, and the
create / list / get / update / delete handlers, together with theorems
checking the specification's claims against these definitions.

Modelling conventions: Python dictionaries holding order records become a
`Order` structure whose `price` field is an `Option String` (the seeded
records carry no `"price"` key, records written by `create_order` and
`update_order` do); `created_at` timestamps (floats in the source, used
only for comparison) are modelled as `Int`; handlers that raise
`HTTPException` return `Except ApiError`; the file-system side of
`save_upload_file` (uuid-named upload) is modelled by passing the resulting
image URL as an explicit argument.
-/

namespace BotApi

/-- `ADMIN_USERNAME` from the source configuration. -/
def ADMIN_USERNAME : String := "admin"

/-- `ADMIN_PASSWORD` from the source configuration. -/
def ADMIN_PASSWORD : String := "password123"

/-- `ADMIN_TOKEN`, the single static bearer token. -/
def ADMIN_TOKEN : String := "fake-jwt-token-for-admin"

/-- The error outcomes raised by the handlers (401 and 404). -/
inductive ApiError where
  | unauthorized
  | notFound
  deriving DecidableEq

/-- One order record of `orders_db`.  `price` is `none` when the stored
dictionary has no `"price"` key (as in the seeded records). -/
structure Order where
  id : Nat
  name : String
  udid : String
  image_url : String
  status : String
  download_link : Option String
  created_at : Int
  price : Option String
  deriving DecidableEq

/-- The `Token` response model of `/login`. -/
structure Token where
  access_token : String
  token_type : String
  deriving DecidableEq

/-- The `OrderListResponse` model of `GET /orders`. -/
structure OrderListResponse where
  items : List Order
  total : Nat
  page : Nat
  page_size : Nat
  deriving DecidableEq

/-- `get_current_user`: validates the admin token. -/
def get_current_user (token : String) : Except ApiError String :=
  if token != ADMIN_TOKEN then .error .unauthorized else .ok ADMIN_USERNAME

/-- `login_for_access_token`: exact match against the configured pair. -/
def login_for_access_token (username password : String) : Except ApiError Token :=
  if username != ADMIN_USERNAME || password != ADMIN_PASSWORD then
    .error .unauthorized
  else
    .ok { access_token := ADMIN_TOKEN, token_type := "bearer" }

/-- Whether the first character of the list is a decimal digit. -/
def headIsDigit : List Char → Bool
  | [] => false
  | d :: _ => d.isDigit

/-- Scanner for `re.search(r'\x24(\d+)', name)`: finds the leftmost position
where `'$'` is immediately followed by a digit and returns the maximal digit
run after that `'$'` (the regex group), else the whole search fails. -/
def extractPriceAux : List Char → String
  | [] => "N/A"
  | c :: rest =>
    if c == '$' && headIsDigit rest then String.mk (rest.takeWhile Char.isDigit)
    else extractPriceAux rest

/-- `extract_price_from_name`: digit run after the first `'$'`-digit
occurrence, else the literal `"N/A"`. -/
def extract_price_from_name (name : String) : String :=
  extractPriceAux name.data

/-- Position `i` of `s` starts a regex match: `'$'` immediately followed by
a digit. -/
def dollarDigitAt (s : List Char) (i : Nat) : Bool :=
  s[i]? == some '$' && (s[i+1]?).any Char.isDigit

/-- Python's substring test `needle in hay` on character lists: `needle` is
a contiguous run somewhere in `hay`. -/
def hasInfix (hay needle : List Char) : Bool :=
  needle.isPrefixOf hay ||
    match hay with
    | [] => false
    | _ :: t => hasInfix t needle

/-- Case-insensitive substring test, as in
`q.lower() in o["name"].lower()`. -/
def hasInfixS (hay needle : String) : Bool :=
  hasInfix hay.toLower.data needle.toLower.data

/-- The known-status test `status.lower() in ["pending", "approved",
"rejected"]`. -/
def statusKnown (s : String) : Bool :=
  ["pending", "approved", "rejected"].contains s.toLower

/-- The read-response decoration `\x7b**o, "price": extract_price_from_name(o["name"])\x7d`. -/
def withPrice (o : Order) : Order :=
  { o with price := some (extract_price_from_name o.name) }

/-- The sort key of `sorted(filtered_orders, key=created_at, reverse=True)`:
descending by `created_at`. -/
def orderLE (a b : Order) : Bool :=
  decide (b.created_at ≤ a.created_at)

/-- The filtering stage of `list_orders`: status filter (applied only when
the status argument is truthy and one of the three known statuses), then
case-insensitive substring search over name and udid (applied only when the
query argument is truthy). -/
def filtered_orders (db : List Order) (status q : Option String) : List Order :=
  let f1 :=
    match status with
    | some s =>
      if s != "" && statusKnown s then
        db.filter (fun o => o.status.toLower == s.toLower)
      else db
    | none => db
  match q with
  | some qs =>
    if qs != "" then
      f1.filter (fun o => hasInfixS o.name qs || hasInfixS o.udid qs)
    else f1
  | none => f1

/-- The sorting stage of `list_orders`: stable sort by `created_at`
descending. -/
def sorted_filtered (db : List Order) (status q : Option String) : List Order :=
  (filtered_orders db status q).mergeSort orderLE

/-- `GET /orders`: filter, sort, slice `[(page-1)*page_size :
(page-1)*page_size + page_size]`, decorate each item with the derived
price.  `page` and `page_size` are modelled as naturals: the claims under
check only concern values `≥ 1` (Python's negative-index slicing is outside
the model). -/
def list_orders (db : List Order) (page page_size : Nat)
    (status q : Option String) : OrderListResponse :=
  let f2 := filtered_orders db status q
  let sorted := f2.mergeSort orderLE
  let start := (page - 1) * page_size
  { items := ((sorted.drop start).take page_size).map withPrice
    total := f2.length
    page := page
    page_size := page_size }

/-- `GET /orders/\x7border_id\x7d`: first record with the given id, decorated with
the derived price; 404 when absent. -/
def get_order (db : List Order) (order_id : Nat) : Except ApiError Order :=
  match db.find? (fun o => o.id == order_id) with
  | none => .error .notFound
  | some o => .ok (withPrice o)

/-- `POST /orders`: assigns `len(orders_db) + 1` as id, records the saved
image URL, status `"pending"`, no download link, the creation time, and the
extracted price, and appends the record.  Returns the new collection and
the created record (which is also the response body). -/
def create_order (db : List Order) (name udid : String) (image_url : String)
    (now : Int) : List Order × Order :=
  let new_id := db.length + 1
  let o : Order :=
    { id := new_id
      name := name
      udid := udid
      image_url := image_url
      status := "pending"
      download_link := none
      created_at := now
      price := some (extract_price_from_name name) }
  (db ++ [o], o)

/-- The expression `download_link if download_link else None`: an absent or
empty download link is stored as `None`. -/
def normalizeDL (dl : Option String) : Option String :=
  match dl with
  | some s => if s != "" then some s else none
  | none => none

/-- `PUT /orders/\x7border_id\x7d`: mutates the first record whose id matches:
replaces the image URL only when a new upload is supplied, overwrites name,
udid and status, sets `download_link` to the supplied value unless it is
falsy (absent or empty, both become `None`), and rewrites the stored
price.  Returns the new collection and the updated record; 404 when no
record matches.  `new_image_url` models the URL returned by
`save_upload_file` when a file with a nonempty filename was uploaded. -/
def update_order (db : List Order) (order_id : Nat)
    (name udid status : String) (download_link : Option String)
    (new_image_url : Option String) : Except ApiError (List Order × Order) :=
  match db with
  | [] => .error .notFound
  | o :: rest =>
    if o.id == order_id then
      let upd : Order :=
        { o with
          image_url := new_image_url.getD o.image_url
          name := name
          udid := udid
          status := status
          download_link := normalizeDL download_link
          price := some (extract_price_from_name name) }
      .ok (upd :: rest, upd)
    else
      match update_order rest order_id name udid status download_link new_image_url with
      | .error e => .error e
      | .ok (rest', upd) => .ok (o :: rest', upd)

/-- `DELETE /orders/\x7border_id\x7d`: reassigns the collection to the records
whose id differs, then 404s when nothing was removed. -/
def delete_order (db : List Order) (order_id : Nat) :
    Except ApiError (List Order) :=
  let remaining := db.filter (fun o => o.id != order_id)
  if remaining.length == db.length then .error .notFound else .ok remaining

/-- The record seeded for index `i` by `startup_event`.  `now` models
`time.time()` at startup and `hex` the per-record random hex suffix of the
udid. -/
def seedOrder (now : Int) (hex : Nat → String) (i : Nat) : Order :=
  { id := i
    name := "Dummy Item " ++ toString i ++ " $" ++ toString (100 + i)
    udid := "dummy-" ++ toString i ++ "-" ++ hex i
    image_url := "/images/default.jpg"
    status :=
      if i % 3 == 0 then "approved"
      else if i % 5 == 0 then "rejected"
      else "pending"
    download_link :=
      if i % 3 == 0 then some ("http://example.com/download/" ++ toString i)
      else none
    created_at := now - (i : Int) * 3600
    price := none }

/-- The 25 dummy records appended by `startup_event` (ids 1 to 25; record
`i` created `i` hours before `now`).  The stored dictionaries carry no
`"price"` key. -/
def startup_orders (now : Int) (hex : Nat → String) : List Order :=
  (List.range' 1 25).map (seedOrder now hex)

/-- The trace exhibiting the id-assignment hazard: from the seeded state,
delete order 1, then create a new order. -/
def idBugTrace : List Order :=
  match delete_order (startup_orders 0 (fun _ => "")) 1 with
  | .ok db1 => (create_order db1 "Widget" "u1" "/images/x.jpg" 0).1
  | .error _ => []

/-- C9: login succeeds (returning the single static token) exactly on the
configured admin pair and fails with Unauthorized otherwise; authorize
succeeds exactly on the static admin token and fails with Unauthorized on
every other string. -/
theorem C9_auth_exact_match (u p t : String) :
    (login_for_access_token u p = .ok ⟨ADMIN_TOKEN, "bearer"⟩ ↔
      u = ADMIN_USERNAME ∧ p = ADMIN_PASSWORD) ∧
    (login_for_access_token u p = .error .unauthorized ↔
      ¬(u = ADMIN_USERNAME ∧ p = ADMIN_PASSWORD)) ∧
    (get_current_user t = .ok ADMIN_USERNAME ↔ t = ADMIN_TOKEN) ∧
    (get_current_user t = .error .unauthorized ↔ t ≠ ADMIN_TOKEN) := by
  by_cases hu : u = ADMIN_USERNAME <;> by_cases hp : p = ADMIN_PASSWORD <;>
    by_cases ht : t = ADMIN_TOKEN <;>
    simp [login_for_access_token, get_current_user, hu, hp, ht]

/-- C8: deleting an id not present in the collection fails with NotFound
and the reassigned collection is unchanged (same records, same order);
deleting a present id succeeds and keeps exactly the records whose id
differs, in their original order. -/
theorem C8_delete_notfound_or_removes (db : List Order) (oid : Nat) :
    ((∀ o ∈ db, o.id ≠ oid) →
      delete_order db oid = .error .notFound ∧
      db.filter (fun o => o.id != oid) = db) ∧
    ((∃ o ∈ db, o.id = oid) →
      delete_order db oid = .ok (db.filter (fun o => o.id != oid))) := by
  constructor
  · intro h
    have hf : db.filter (fun o => o.id != oid) = db :=
      List.filter_eq_self.mpr (by intro o ho; simpa using h o ho)
    constructor
    · simp [delete_order, hf]
    · exact hf
  · rintro ⟨o, ho, hid⟩
    have hlt : ¬ ((db.filter (fun o => o.id != oid)).length = db.length) := by
      intro hlen
      have := List.filter_length_eq_length.mp hlen o ho
      simp [hid] at this
    simp [delete_order, hlt]

theorem C8_delete_witness :
    delete_order [⟨1, "A", "u", "i", "pending", none, 0, none⟩] 1 = .ok [] ∧
    delete_order [⟨1, "A", "u", "i", "pending", none, 0, none⟩] 2 =
      .error .notFound := by
  constructor
  · have h := (C8_delete_notfound_or_removes
      [⟨1, "A", "u", "i", "pending", none, 0, none⟩] 1).2
      ⟨⟨1, "A", "u", "i", "pending", none, 0, none⟩, by simp, rfl⟩
    exact h.trans (congrArg Except.ok (by decide))
  · exact ((C8_delete_notfound_or_removes
      [⟨1, "A", "u", "i", "pending", none, 0, none⟩] 2).1 (by decide)).1

/-- C1: the id-uniqueness invariant is broken by the code's
`len(orders_db) + 1` id assignment: from the seeded state, deleting order 1
and creating one order yields a collection in which id 25 occurs twice. -/
theorem C1_id_uniqueness_broken :
    ((idBugTrace.map (fun o => o.id)).count 25 = 2) ∧
    ¬ (idBugTrace.map (fun o => o.id)).Nodup := by
  constructor
  · decide
  · decide

/-- C2 counterexample: the record stored by `create_order` carries a price
value (the claim says stored records carry none). -/
theorem C2_price_stored_counterexample :
    ((create_order [] "Widget $250" "u1" "/images/i.jpg" 0).1.map
      (fun o => o.price)) = [some "250"] := by
  decide

/-- A successful update returns a record that is a member of the new
collection and whose name, udid, status, download link and price fields
are exactly what `update_order` writes. -/
theorem update_order_ok_spec (db : List Order) (oid : Nat)
    (nm ud st : String) (dl im : Option String) (db' : List Order)
    (ou : Order) (h : update_order db oid nm ud st dl im = .ok (db', ou)) :
    ou ∈ db' ∧ ou.name = nm ∧ ou.udid = ud ∧ ou.status = st ∧
    ou.price = some (extract_price_from_name nm) ∧
    ou.download_link = normalizeDL dl := by
  induction db generalizing db' with
  | nil => simp [update_order] at h
  | cons o rest ih =>
    rw [update_order.eq_def] at h
    by_cases ho : (o.id == oid) = true
    · simp only [ho, if_true, Except.ok.injEq, Prod.mk.injEq] at h
      obtain ⟨hdb, hou⟩ := h
      subst hou; subst hdb
      refine ⟨List.mem_cons_self _ _, rfl, rfl, rfl, rfl, rfl⟩
    · simp only [ho, if_false, Bool.false_eq_true] at h
      cases hrec : update_order rest oid nm ud st dl im with
      | error e => rw [hrec] at h; simp at h
      | ok p =>
        rw [hrec] at h
        obtain ⟨rest', upd⟩ := p
        simp only [Except.ok.injEq, Prod.mk.injEq] at h
        obtain ⟨hdb, hou⟩ := h
        subst hou; subst hdb
        obtain ⟨hmem, hrest⟩ := ih rest' hrec
        exact ⟨List.mem_cons_of_mem _ hmem, hrest⟩

/-- Supplying the empty string as `download_link` takes the falsy branch,
so it is indistinguishable from omitting the field. -/
theorem update_order_empty_download_link (db : List Order) (oid : Nat)
    (nm ud st : String) (im : Option String) :
    update_order db oid nm ud st (some "") im =
      update_order db oid nm ud st none im := by
  induction db with
  | nil => rfl
  | cons o rest ih =>
    rw [update_order.eq_def]
    conv_rhs => rw [update_order.eq_def]
    by_cases ho : (o.id == oid) = true <;> simp [ho, ih, normalizeDL]

theorem dollarDigitAt_nil (i : Nat) : dollarDigitAt [] i = false := by
  simp [dollarDigitAt]

theorem dollarDigitAt_cons_succ (c : Char) (l : List Char) (i : Nat) :
    dollarDigitAt (c :: l) (i + 1) = dollarDigitAt l i := by
  simp [dollarDigitAt]

theorem dollarDigitAt_cons_zero (c : Char) (l : List Char) :
    dollarDigitAt (c :: l) 0 = (c == '$' && headIsDigit l) := by
  cases l <;> simp [dollarDigitAt, headIsDigit, Option.any]

/-- The scanner answers `"N/A"` exactly when no position starts a
`'$'`-digit match. -/
theorem extractPriceAux_eq_na_iff (l : List Char) :
    extractPriceAux l = "N/A" ↔ ∀ i, dollarDigitAt l i = false := by
  induction l with
  | nil => exact iff_of_true rfl (fun i => dollarDigitAt_nil i)
  | cons c t ih =>
    by_cases h : (c == '$' && headIsDigit t) = true
    · simp only [extractPriceAux, h, if_true]
      refine iff_of_false ?_ ?_
      · intro hmk
        have hd : headIsDigit t = true := by
          have h2 := h
          simp only [Bool.and_eq_true] at h2
          exact h2.2
        cases t with
        | nil => simp [headIsDigit] at hd
        | cons d t' =>
          simp only [headIsDigit] at hd
          rw [List.takeWhile_cons, if_pos hd] at hmk
          have : d :: List.takeWhile Char.isDigit t' = "N/A".data :=
            congrArg String.data hmk
          have hdN : d = 'N' := (List.cons.injEq _ _ _ _ ▸ this).1
          rw [hdN] at hd
          simp at hd
      · intro hall
        have := hall 0
        rw [dollarDigitAt_cons_zero, h] at this
        exact Bool.true_eq_false ▸ this
    · have h' : (c == '$' && headIsDigit t) = false := by
        simpa using h
      simp only [extractPriceAux, h', Bool.false_eq_true, if_false]
      rw [ih]
      constructor
      · intro hall i
        cases i with
        | zero => rw [dollarDigitAt_cons_zero]; exact h'
        | succ j => rw [dollarDigitAt_cons_succ]; exact hall j
      · intro hall j
        have := hall (j + 1)
        rwa [dollarDigitAt_cons_succ] at this

/-- When position `i` is the leftmost `'$'`-digit match, the scanner
returns the digit run that follows it. -/
theorem extractPriceAux_first (l : List Char) (i : Nat)
    (hi : dollarDigitAt l i = true)
    (hmin : ∀ j, j < i → dollarDigitAt l j = false) :
    extractPriceAux l = String.mk ((l.drop (i + 1)).takeWhile Char.isDigit) := by
  induction l generalizing i with
  | nil => rw [dollarDigitAt_nil] at hi; exact absurd hi (by simp)
  | cons c t ih =>
    by_cases h : (c == '$' && headIsDigit t) = true
    · have hi0 : i = 0 := by
        cases i with
        | zero => rfl
        | succ j =>
          have := hmin 0 (Nat.succ_pos j)
          rw [dollarDigitAt_cons_zero, h] at this
          exact absurd this (by simp)
      subst hi0
      simp only [extractPriceAux, h, if_true, List.drop_succ_cons,
        List.drop_zero]
    · have h' : (c == '$' && headIsDigit t) = false := by simpa using h
      cases i with
      | zero =>
        rw [dollarDigitAt_cons_zero, h'] at hi
        exact absurd hi (by simp)
      | succ j =>
        rw [dollarDigitAt_cons_succ] at hi
        have hmin' : ∀ k, k < j → dollarDigitAt t k = false := by
          intro k hk
          have := hmin (k + 1) (Nat.succ_lt_succ hk)
          rwa [dollarDigitAt_cons_succ] at this
        simp only [extractPriceAux, h', Bool.false_eq_true, if_false,
          List.drop_succ_cons]
        exact ih j hi hmin'

/-- C3: `extract_price_from_name` returns the digit run of the first
occurrence of `'$'` followed by one or more decimal digits, and the literal
`"N/A"` when no such occurrence exists; in particular on
`"Widget $250"` it returns `"250"` and on `"Widget"` it returns `"N/A"`. -/
theorem C3_extract_price_spec (s : String) :
    (extract_price_from_name s = "N/A" ↔
      ∀ i, dollarDigitAt s.data i = false) ∧
    (∀ i, dollarDigitAt s.data i = true →
      (∀ j, j < i → dollarDigitAt s.data j = false) →
      extract_price_from_name s
        = String.mk ((s.data.drop (i + 1)).takeWhile Char.isDigit)) ∧
    extract_price_from_name "Widget $250" = "250" ∧
    extract_price_from_name "Widget" = "N/A" :=
  ⟨extractPriceAux_eq_na_iff s.data,
   fun i hi hmin => extractPriceAux_first s.data i hi hmin,
   by decide, by decide⟩

theorem C3_extract_price_witness :
    extract_price_from_name "Widget $250"
      = String.mk (("Widget $250".data.drop 8).takeWhile Char.isDigit) :=
  (C3_extract_price_spec "Widget $250").2.1 7 (by decide) (by decide)

/-- Every item returned by `list_orders` is some record of the filtered
collection decorated with the derived price. -/
theorem mem_items_exists {db : List Order} {page psize : Nat}
    {st q : Option String} {o' : Order}
    (h : o' ∈ (list_orders db page psize st q).items) :
    ∃ o₀, o₀ ∈ filtered_orders db st q ∧ o' = withPrice o₀ := by
  simp only [list_orders] at h
  obtain ⟨o₀, ho₀, rfl⟩ := List.mem_map.mp h
  exact ⟨o₀,
    List.mem_mergeSort.mp (List.drop_subset _ _ (List.take_subset _ _ ho₀)),
    rfl⟩

/-- C2, amended: `create_order` and `update_order` do store the extracted
price on the record, but every read response — the created record's body,
`get_order`, and each `list_orders` item — carries the price re-extracted
from the (current) name field. -/
theorem C2_price_recomputed_on_reads (db : List Order)
    (name udid img : String) (now : Int) (oid : Nat) (o : Order)
    (ho : get_order db oid = .ok o) (page psize : Nat) (st q : Option String)
    (o' : Order) (ho' : o' ∈ (list_orders db page psize st q).items)
    (nm ud stt : String) (dl im : Option String) (db' : List Order)
    (ou : Order) (hu : update_order db oid nm ud stt dl im = .ok (db', ou)) :
    (create_order db name udid img now).2.price
        = some (extract_price_from_name name) ∧
    (create_order db name udid img now).2 ∈ (create_order db name udid img now).1 ∧
    o.price = some (extract_price_from_name o.name) ∧
    o'.price = some (extract_price_from_name o'.name) ∧
    ou.price = some (extract_price_from_name nm) ∧ ou ∈ db' := by
  refine ⟨rfl, by simp [create_order], ?_, ?_, ?_, ?_⟩
  · rw [get_order] at ho
    cases hf : db.find? (fun x => x.id == oid) with
    | none => rw [hf] at ho; exact absurd ho (by simp)
    | some o₀ =>
      rw [hf] at ho
      simp only [Except.ok.injEq] at ho
      subst ho
      simp [withPrice]
  · obtain ⟨o₀, -, rfl⟩ := mem_items_exists ho'
    simp [withPrice]
  · exact (update_order_ok_spec db oid nm ud stt dl im db' ou hu).2.2.2.2.1
  · exact (update_order_ok_spec db oid nm ud stt dl im db' ou hu).1

theorem C2_price_recomputed_witness :
    (create_order [⟨1, "A $5", "u", "i", "pending", none, 0, none⟩]
        "B $9" "u9" "i9" 7).2.price = some (extract_price_from_name "B $9") ∧
    (create_order [⟨1, "A $5", "u", "i", "pending", none, 0, none⟩]
        "B $9" "u9" "i9" 7).2 ∈
      (create_order [⟨1, "A $5", "u", "i", "pending", none, 0, none⟩]
        "B $9" "u9" "i9" 7).1 ∧
    ((⟨1, "A $5", "u", "i", "pending", none, 0, some "5"⟩ : Order)).price
        = some (extract_price_from_name
            (⟨1, "A $5", "u", "i", "pending", none, 0, some "5"⟩ : Order).name) ∧
    ((⟨1, "A $5", "u", "i", "pending", none, 0, some "5"⟩ : Order)).price
        = some (extract_price_from_name
            (⟨1, "A $5", "u", "i", "pending", none, 0, some "5"⟩ : Order).name) ∧
    ((⟨1, "New $7", "u2", "i", "approved", none, 0, some "7"⟩ : Order)).price
        = some (extract_price_from_name "New $7") ∧
    ((⟨1, "New $7", "u2", "i", "approved", none, 0, some "7"⟩ : Order)) ∈
      [(⟨1, "New $7", "u2", "i", "approved", none, 0, some "7"⟩ : Order)] :=
  C2_price_recomputed_on_reads
    [⟨1, "A $5", "u", "i", "pending", none, 0, none⟩] "B $9" "u9" "i9" 7 1
    ⟨1, "A $5", "u", "i", "pending", none, 0, some "5"⟩ (by rfl)
    1 1 none none ⟨1, "A $5", "u", "i", "pending", none, 0, some "5"⟩
    (by
      simp only [list_orders, filtered_orders, List.mergeSort_singleton]
      decide)
    "New $7" "u2" "approved" none none
    [⟨1, "New $7", "u2", "i", "approved", none, 0, some "7"⟩]
    ⟨1, "New $7", "u2", "i", "approved", none, 0, some "7"⟩ (by rfl)

/-- When the status filter is active, every record of the filtered
collection matches the requested status case-insensitively. -/
theorem mem_filtered_status {db : List Order} {s : String} {q : Option String}
    (hcond : (s != "" && statusKnown s) = true) {o : Order}
    (h : o ∈ filtered_orders db (some s) q) :
    (o.status.toLower == s.toLower) = true := by
  cases q with
  | none =>
    simp only [filtered_orders, hcond, if_true] at h
    exact (List.mem_filter.mp h).2
  | some qs =>
    simp only [filtered_orders, hcond, if_true] at h
    by_cases hq : (qs != "") = true
    · rw [if_pos hq] at h
      exact (List.mem_filter.mp (List.mem_filter.mp h).1).2
    · rw [if_neg hq] at h
      exact (List.mem_filter.mp h).2

/-- An unknown status value leaves the collection unfiltered. -/
theorem filtered_orders_unknown_status (db : List Order) (s : String)
    (q : Option String) (hcond : (s != "" && statusKnown s) = false) :
    filtered_orders db (some s) q = filtered_orders db none q := by
  simp only [filtered_orders, hcond, Bool.false_eq_true, if_false]

/-- C4: with a status argument that is one of the three known statuses
(case-insensitively), listing returns only orders whose status equals it
case-insensitively; with any other non-empty status argument, no filter at
all is applied and the response is identical to the unfiltered one. -/
theorem C4_status_filter_known_or_ignored (db : List Order)
    (page psize : Nat) (q : Option String) (s : String) (hs : s ≠ "") :
    (statusKnown s = true →
      ∀ o ∈ (list_orders db page psize (some s) q).items,
        o.status.toLower = s.toLower) ∧
    (statusKnown s = false →
      list_orders db page psize (some s) q
        = list_orders db page psize none q) := by
  have hne : (s != "") = true := bne_iff_ne.mpr hs
  constructor
  · intro hk o ho
    obtain ⟨o₀, hf, rfl⟩ := mem_items_exists ho
    have := mem_filtered_status (by rw [hne, hk]; rfl) hf
    have : o₀.status.toLower = s.toLower := by simpa using this
    simpa [withPrice] using this
  · intro hk
    have := filtered_orders_unknown_status db s q (by rw [hne, hk]; rfl)
    simp only [list_orders, this]

theorem C4_status_filter_witness :
    (statusKnown "APPROVED" = true →
      ∀ o ∈ (list_orders [] 1 12 (some "APPROVED") none).items,
        o.status.toLower = "APPROVED".toLower) ∧
    (statusKnown "APPROVED" = false →
      list_orders [] 1 12 (some "APPROVED") none
        = list_orders [] 1 12 none none) :=
  C4_status_filter_known_or_ignored [] 1 12 none "APPROVED" (by decide)

/-- The recursive substring scanner decides the contiguous-substring
relation. -/
theorem hasInfix_iff (hay needle : List Char) :
    hasInfix hay needle = true ↔ needle <:+: hay := by
  induction hay with
  | nil =>
    rw [hasInfix]
    simp [ List.isPrefixOf_iff_prefix]
  | cons c t ih =>
    rw [hasInfix]
    rw [List.infix_cons_iff]
    simp [ List.isPrefixOf_iff_prefix, ih]

/-- The Python test `q.lower() in hay.lower()` is the case-insensitive
substring relation. -/
theorem hasInfixS_eq_decide (hay needle : String) :
    hasInfixS hay needle
      = decide (needle.toLower.data <:+: hay.toLower.data) := by
  rw [hasInfixS]
  by_cases h : needle.toLower.data <:+: hay.toLower.data
  · rw [decide_eq_true h, (hasInfix_iff _ _).mpr h]
  · rw [decide_eq_false h,
      Bool.eq_false_iff.mpr (fun hh => h ((hasInfix_iff _ _).mp hh))]

/-- C5: listing with a non-empty search string returns exactly the orders
in which the string appears case-insensitively as a substring of the name
or of the udid: every returned item matches, and with the page covering the
whole collection the items are precisely the matching orders. -/
theorem C5_search_exact (db : List Order) (q : String) (hq : q ≠ "")
    (page psize : Nat) :
    (∀ o ∈ (list_orders db page psize none (some q)).items,
      q.toLower.data <:+: o.name.toLower.data ∨
      q.toLower.data <:+: o.udid.toLower.data) ∧
    (List.Perm (list_orders db 1 db.length none (some q)).items
      ((db.filter (fun o =>
        decide (q.toLower.data <:+: o.name.toLower.data) ||
        decide (q.toLower.data <:+: o.udid.toLower.data))).map withPrice)) := by
  have hne : (q != "") = true := bne_iff_ne.mpr hq
  have hfil : filtered_orders db none (some q)
      = db.filter (fun o => hasInfixS o.name q || hasInfixS o.udid q) := by
    simp only [filtered_orders, hne, if_true]
  have hfil2 : filtered_orders db none (some q)
      = db.filter (fun o =>
          decide (q.toLower.data <:+: o.name.toLower.data) ||
          decide (q.toLower.data <:+: o.udid.toLower.data)) := by
    rw [hfil]
    exact List.filter_congr (fun o _ => by rw [hasInfixS_eq_decide, hasInfixS_eq_decide])
  constructor
  · intro o ho
    obtain ⟨o₀, hf, rfl⟩ := mem_items_exists ho
    rw [hfil] at hf
    have hmatch := (List.mem_filter.mp hf).2
    simp only [Bool.or_eq_true] at hmatch
    rcases hmatch with hn | hu
    · left
      rw [hasInfixS] at hn
      have hp := (hasInfix_iff _ _).mp hn
      simpa [withPrice] using hp
    · right
      rw [hasInfixS] at hu
      have hp := (hasInfix_iff _ _).mp hu
      simpa [withPrice] using hp
  · have hlen : ((filtered_orders db none (some q)).mergeSort orderLE).length
        ≤ db.length := by
      rw [List.length_mergeSort, hfil]
      exact List.length_filter_le _ _
    have hitems : (list_orders db 1 db.length none (some q)).items
        = ((filtered_orders db none (some q)).mergeSort orderLE).map withPrice := by
      simp only [list_orders]
      rw [Nat.sub_self, Nat.zero_mul, List.drop_zero,
        List.take_of_length_le hlen]
    rw [hitems, ← hfil2]
    exact (List.mergeSort_perm _ _).map withPrice

theorem C5_search_witness :
    (∀ o ∈ (list_orders ([] : List Order) 1 12 none (some "abc")).items,
      "abc".toLower.data <:+: o.name.toLower.data ∨
      "abc".toLower.data <:+: o.udid.toLower.data) ∧
    (List.Perm
      (list_orders ([] : List Order) 1 ([] : List Order).length none
        (some "abc")).items
      ((List.filter (fun o : Order =>
        decide ("abc".toLower.data <:+: o.name.toLower.data) ||
        decide ("abc".toLower.data <:+: o.udid.toLower.data))
        ([] : List Order)).map withPrice)) :=
  C5_search_exact [] "abc" (by decide) 1 12

/-- `orderLE` is transitive. -/
theorem orderLE_trans : ∀ (a b c : Order),
    orderLE a b → orderLE b c → orderLE a c := by
  intro a b c hab hbc
  simp only [orderLE, decide_eq_true_eq] at hab hbc ⊢
  omega

/-- `orderLE` is total. -/
theorem orderLE_total : ∀ (a b : Order), orderLE a b || orderLE b a := by
  intro a b
  simp only [orderLE, Bool.or_eq_true, decide_eq_true_eq]
  omega

/-- Stability of the sort: records that are pairwise tied under `orderLE`
keep their original relative order, expressed as: filtering the sorted list
by a predicate that only selects mutually-tied records gives the same list
as filtering the input. -/
theorem mergeSort_filter_fixed (l : List Order) (p : Order → Bool)
    (hp : ∀ a b, p a = true → p b = true → orderLE a b = true) :
    (l.mergeSort orderLE).filter p = l.filter p := by
  have hpw : (l.filter p).Pairwise (fun a b => orderLE a b = true) :=
    List.pairwise_of_forall_mem_list (fun a ha b hb =>
      hp a b (List.of_mem_filter ha) (List.of_mem_filter hb))
  have hsub : List.Sublist (l.filter p) (l.mergeSort orderLE) :=
    List.sublist_mergeSort orderLE_trans orderLE_total hpw
      (List.filter_sublist l)
  have hsub2 := hsub.filter p
  have hidem : (l.filter p).filter p = l.filter p := by
    simp [List.filter_filter]
  rw [hidem] at hsub2
  have hperm : List.Perm ((l.mergeSort orderLE).filter p) (l.filter p) :=
    (List.mergeSort_perm l orderLE).filter p
  exact (hsub2.eq_of_length hperm.length_eq.symm).symm

/-- C6: with no filters, page 1 and a page size at least the collection
size, listing returns every order exactly once (a permutation of the
price-decorated collection), sorted by `created_at` descending, with
records of equal `created_at` kept in their original insertion order. -/
theorem C6_full_page_sorted_stable (db : List Order) (psize : Nat)
    (h : db.length ≤ psize) :
    List.Perm (list_orders db 1 psize none none).items (db.map withPrice) ∧
    (list_orders db 1 psize none none).items.Pairwise
      (fun a b => b.created_at ≤ a.created_at) ∧
    ∀ t : Int,
      (list_orders db 1 psize none none).items.filter
          (fun o => o.created_at == t)
        = (db.map withPrice).filter (fun o => o.created_at == t) := by
  have hfil : filtered_orders db none none = db := rfl
  have hitems : (list_orders db 1 psize none none).items
      = (db.mergeSort orderLE).map withPrice := by
    simp only [list_orders, hfil]
    rw [Nat.sub_self, Nat.zero_mul, List.drop_zero,
      List.take_of_length_le (by rw [List.length_mergeSort]; exact h)]
  refine ⟨?_, ?_, ?_⟩
  · rw [hitems]
    exact (List.mergeSort_perm db orderLE).map withPrice
  · rw [hitems]
    exact (List.sorted_mergeSort orderLE_trans orderLE_total db).map withPrice
      (fun a b hab => of_decide_eq_true hab)
  · intro t
    rw [hitems, List.filter_map, List.filter_map]
    congr 1
    apply mergeSort_filter_fixed
    intro a b ha hb
    have ha2 : a.created_at = t := by
      simpa [withPrice, Function.comp] using ha
    have hb2 : b.created_at = t := by
      simpa [withPrice, Function.comp] using hb
    simp [orderLE, ha2, hb2]

theorem C6_full_page_witness :
    List.Perm
      (list_orders [⟨1, "A", "u", "i", "pending", none, 5, none⟩] 1 3
        none none).items
      ([⟨1, "A", "u", "i", "pending", none, 5, none⟩].map withPrice) ∧
    (list_orders [⟨1, "A", "u", "i", "pending", none, 5, none⟩] 1 3
        none none).items.Pairwise (fun a b => b.created_at ≤ a.created_at) ∧
    ∀ t : Int,
      (list_orders [⟨1, "A", "u", "i", "pending", none, 5, none⟩] 1 3
          none none).items.filter (fun o => o.created_at == t)
        = ([⟨1, "A", "u", "i", "pending", none, 5, none⟩].map
            withPrice).filter (fun o => o.created_at == t) :=
  C6_full_page_sorted_stable
    [⟨1, "A", "u", "i", "pending", none, 5, none⟩] 3 (by decide)

/-- The seeded collection is already sorted by `created_at` descending
(record `i` was created `i` hours ago). -/
theorem startup_orders_sorted (now : Int) (hex : Nat → String) :
    (startup_orders now hex).Pairwise (fun a b => orderLE a b = true) := by
  rw [startup_orders]
  refine List.pairwise_map.mpr ?_
  have hr : (List.range' 1 25).Pairwise (fun i j => i ≤ j) := by decide
  exact hr.imp (fun {i j} hij => by
    simp only [orderLE, seedOrder, decide_eq_true_eq]
    omega)

/-- C7: listing returns the slice
`[(page-1)*page_size, (page-1)*page_size + page_size)` of the
filtered-and-sorted sequence and reports the filtered-but-unpaged count as
`total`; a page beyond the end yields an empty item list; and against
exactly the 25 seeded orders, page 3 with page size 10 returns the orders
ranked 21 to 25 (ids 21 to 25) with `total = 25`. -/
theorem C7_pagination_slice (db : List Order) (page psize : Nat)
    (st q : Option String) (_hpage : 1 ≤ page) (_hpsize : 1 ≤ psize)
    (now : Int) (hex : Nat → String) :
    (list_orders db page psize st q).items
      = (((sorted_filtered db st q).drop ((page - 1) * psize)).take
          psize).map withPrice ∧
    (list_orders db page psize st q).total
      = (filtered_orders db st q).length ∧
    ((filtered_orders db st q).length ≤ (page - 1) * psize →
      (list_orders db page psize st q).items = []) ∧
    (list_orders (startup_orders now hex) 3 10 none none).items.map
        (fun o => o.id) = [21, 22, 23, 24, 25] ∧
    (list_orders (startup_orders now hex) 3 10 none none).total = 25 := by
  have hfil : filtered_orders (startup_orders now hex) none none
      = startup_orders now hex := rfl
  have hms : (startup_orders now hex).mergeSort orderLE
      = startup_orders now hex :=
    List.mergeSort_of_sorted (startup_orders_sorted now hex)
  refine ⟨rfl, rfl, ?_, ?_, ?_⟩
  · intro hle
    simp only [list_orders]
    rw [List.drop_eq_nil_iff.mpr (by rw [List.length_mergeSort]; exact hle)]
    simp
  · simp only [list_orders]
    rw [hfil, hms, startup_orders, ← List.map_drop, ← List.map_take]
    have hdt : ((List.range' 1 25).drop ((3 - 1) * 10)).take 10
        = [21, 22, 23, 24, 25] := by decide
    rw [hdt]
    simp [List.map_map, withPrice, seedOrder]
  · simp only [list_orders]
    rw [hfil, startup_orders]
    simp

theorem C7_pagination_witness :
    (list_orders ([] : List Order) 1 1 none none).items
      = (((sorted_filtered ([] : List Order) none none).drop
          ((1 - 1) * 1)).take 1).map withPrice ∧
    (list_orders ([] : List Order) 1 1 none none).total
      = (filtered_orders ([] : List Order) none none).length ∧
    ((filtered_orders ([] : List Order) none none).length ≤ (1 - 1) * 1 →
      (list_orders ([] : List Order) 1 1 none none).items = []) ∧
    (list_orders (startup_orders 0 (fun _ => "")) 3 10 none none).items.map
        (fun o => o.id) = [21, 22, 23, 24, 25] ∧
    (list_orders (startup_orders 0 (fun _ => "")) 3 10 none none).total
      = 25 :=
  C7_pagination_slice [] 1 1 none none (by decide) (by decide) 0
    (fun _ => "")

/-- C10: a successful update of an existing order with the empty string as
the `download_link` form field stores `none` as the record's download link,
and the whole operation is indistinguishable from omitting the field. -/
theorem C10_empty_download_link_is_null (db : List Order) (oid : Nat)
    (nm ud st : String) (im : Option String) (db' : List Order) (ou : Order)
    (h : update_order db oid nm ud st (some "") im = .ok (db', ou)) :
    ou.download_link = none ∧ ou ∈ db' ∧
    update_order db oid nm ud st (some "") im =
      update_order db oid nm ud st none im := by
  obtain ⟨hmem, -, -, -, -, hdl⟩ := update_order_ok_spec db oid nm ud st (some "") im db' ou h
  refine ⟨?_, hmem, update_order_empty_download_link db oid nm ud st im⟩
  simpa using hdl

theorem C10_empty_download_link_witness :
    ({ id := 1, name := "New $7", udid := "u2", image_url := "i",
       status := "approved", download_link := none, created_at := 0,
       price := some "7" } : Order).download_link = none ∧
    ({ id := 1, name := "New $7", udid := "u2", image_url := "i",
       status := "approved", download_link := none, created_at := 0,
       price := some "7" } : Order) ∈
      [({ id := 1, name := "New $7", udid := "u2", image_url := "i",
          status := "approved", download_link := none, created_at := 0,
          price := some "7" } : Order)] ∧
    update_order [⟨1, "A $1", "u", "i", "pending", some "http://old", 0, none⟩]
        1 "New $7" "u2" "approved" (some "") none =
      update_order [⟨1, "A $1", "u", "i", "pending", some "http://old", 0, none⟩]
        1 "New $7" "u2" "approved" none none :=
  C10_empty_download_link_is_null
    [⟨1, "A $1", "u", "i", "pending", some "http://old", 0, none⟩]
    1 "New $7" "u2" "approved" none
    [⟨1, "New $7", "u2", "i", "approved", none, 0, some "7"⟩]
    ⟨1, "New $7", "u2", "i", "approved", none, 0, some "7"⟩
    (by rfl)

end BotApi
